import Mathlib

/-!
# Verification of the MJML document serializer

Shallow embedding of `src/services/mjmlService.ts`: the document tree
(`MJElement`), the hidden-node filter, the font resolver helpers, the
recursive node renderer and the top-level `generateMJML` serializer,
together with theorems settling the specified properties.

JavaScript records (`Record<string, string>`) are modelled as association
lists with unique keys; JavaScript `Set`s (insertion-ordered, deduplicating)
are modelled as duplicate-free lists built by append-if-absent.  The
`MJML_COMPONENTS` registry lives outside the serializer module, so the
embedding is parametric in a registry value.
-/

set_option maxRecDepth 8192

namespace MJMLBuilder

/-- Attribute bags: `Record<string, string>` as an association list. -/
abbrev AttrMap := List (String × String)

/-- `m[k]` on a JS record: the first binding of `k`, if any. -/
def attrLookup (m : AttrMap) (k : String) : Option String :=
  (m.find? (fun p => p.1 == k)).map (fun p => p.2)

/-- A node of the document tree (`MJElement` in `src/types`).  Only the
fields the serializer reads are modelled: `type`, `attributes`, `content`,
`children` and `hidden`.  `children : Option _` mirrors the optional field
(`undefined` is `none`); the optional boolean `hidden` collapses to `Bool`
since the code only tests its truthiness. -/
inductive MJElement : Type where
  | mk (type : String) (attributes : AttrMap) (content : Option String)
      (children : Option (List MJElement)) (hidden : Bool)

namespace MJElement

def type : MJElement → String
  | .mk t _ _ _ _ => t

def attributes : MJElement → AttrMap
  | .mk _ a _ _ _ => a

def content : MJElement → Option String
  | .mk _ _ c _ _ => c

def children : MJElement → Option (List MJElement)
  | .mk _ _ _ ch _ => ch

def hidden : MJElement → Bool
  | .mk _ _ _ _ h => h

end MJElement

/-- `stripHidden` (mjmlService.ts:103-106): drop every element whose
`hidden` flag is set — taking its whole subtree with it — and recursively
filter the children of the survivors.  The source's
`filter(!hidden).map(strip children)` pipeline is fused into one recursion. -/
def stripHidden : List MJElement → List MJElement
  | [] => []
  | .mk t a c ch h :: els =>
    if h then stripHidden els
    else
      let ch' := match ch with
        | some cs => some (stripHidden cs)
        | none => none
      .mk t a c ch' h :: stripHidden els

/-- `HEAD_TYPES` (mjmlService.ts:5-13): component types rendered inside
`<mj-head>` rather than `<mj-body>`. -/
def HEAD_TYPES : List String :=
  ["mj-attributes", "mj-breakpoint", "mj-font", "mj-html-attributes",
   "mj-preview", "mj-style", "mj-title"]

/-- `SELF_CLOSING` (mjmlService.ts:16-24): tags emitted as a single
empty-element tag, with no children or text content. -/
def SELF_CLOSING : List String :=
  ["mj-breakpoint", "mj-font", "mj-image", "mj-divider", "mj-spacer",
   "mj-carousel-image", "mj-html-attributes"]

/-- `SYSTEM_FONTS` (mjmlService.ts:33-38): lower-cased web-safe font names
that never trigger a Google Fonts injection. -/
def SYSTEM_FONTS : List String :=
  ["arial", "helvetica", "helvetica neue", "verdana", "tahoma",
   "trebuchet ms", "times new roman", "georgia", "garamond", "courier new",
   "courier", "palatino", "book antiqua", "impact", "comic sans ms",
   "lucida sans", "lucida grande", "sans-serif", "serif", "monospace",
   "cursive", "fantasy"]

/-- An entry of `DEFAULT_GOOGLE_FONTS` (mjmlService.ts:45-50). -/
structure GoogleFont where
  name : String
  url : String

/-- `DEFAULT_GOOGLE_FONTS` (mjmlService.ts:45-50): baseline fonts always
injected into the generated head. -/
def DEFAULT_GOOGLE_FONTS : List GoogleFont :=
  [⟨"Inter",
    "https://fonts.googleapis.com/css2?family=Inter:wght@300;400;500;700&display=swap"⟩]

/-- JS `String.prototype.trim`: drop leading and trailing whitespace. -/
def jsTrim (s : String) : String :=
  ⟨((s.data.dropWhile Char.isWhitespace).reverse.dropWhile Char.isWhitespace).reverse⟩

/-- JS `String.prototype.toLowerCase` (ASCII letters, which is all the
source compares). -/
def jsToLower (s : String) : String := ⟨s.data.map Char.toLower⟩

/-- JS `split(',')[0]`: the substring before the first comma (the whole
string when it has no comma). -/
def beforeComma (s : String) : String := ⟨s.data.takeWhile (fun c => c != ',')⟩

/-- A single or double quote character, as matched by the source regex
`/^["x27]|["x27]$/` (written here without the literal quote marks). -/
def isQuoteChar (c : Char) : Bool := c == '\"' || c == '\''

/-- One application of the regex `replace` from mjmlService.ts:65: strip at
most one leading and one trailing quote character, each independently. -/
def stripQuotes (s : String) : String :=
  let s1 := if s ≠ "" && isQuoteChar s.front then s.drop 1 else s
  if s1 ≠ "" && isQuoteChar s1.back then s1.dropRight 1 else s1

/-- The primary font name of a `font-family` value (mjmlService.ts:65):
substring before the first comma, trimmed, with one layer of quotes
stripped. -/
def primaryFontName (ff : String) : String :=
  stripQuotes (jsTrim (beforeComma ff))

/-- JS `Set.add`: append the string unless already present, preserving
insertion order and deduplicating by exact string equality. -/
def setAdd (s : List String) (x : String) : List String :=
  if s.contains x then s else s ++ [x]

/-- The per-element body of `walk` (mjmlService.ts:62-67): record the
primary font of a truthy `font-family` attribute when the extracted name is
non-empty. -/
def walkStep (a : AttrMap) (fonts : List String) : List String :=
  match attrLookup a "font-family" with
  | some ff =>
    if ff != "" then
      if primaryFontName ff != "" then setAdd fonts (primaryFontName ff)
      else fonts
    else fonts
  | none => fonts

/-- `collectFontsFromElements`'s inner `walk` (mjmlService.ts:60-70), with
the accumulated font set made explicit: visit each element, apply
`walkStep`, recurse into the children if present, then continue with the
remaining siblings. -/
def collectWalk : List MJElement → List String → List String
  | [], fonts => fonts
  | .mk _ a _ none _ :: rest, fonts => collectWalk rest (walkStep a fonts)
  | .mk _ a _ (some cs) _ :: rest, fonts =>
    collectWalk rest (collectWalk cs (walkStep a fonts))

/-- `collectFontsFromElements` (mjmlService.ts:57-74). -/
def collectFontsFromElements (elements : List MJElement) : List String :=
  collectWalk elements []

/-- `googleFontsUrl` (mjmlService.ts:81-84). -/
def googleFontsUrl (fontName : String) : String :=
  "https://fonts.googleapis.com/css?family=" ++
    (⟨(jsTrim fontName).data.map (fun c => if c == ' ' then '+' else c)⟩ : String) ++
    ":300,400,500,700"

/-- `declaredFontNames` (mjmlService.ts:90-97): names of manual `mj-font`
elements, trimmed and lower-cased, as an insertion-ordered set. -/
def declaredFontNames (fontEls : List MJElement) : List String :=
  fontEls.foldl (fun names el =>
    match attrLookup el.attributes "name" with
    | some n => if n != "" then setAdd names (jsToLower (jsTrim n)) else names
    | none => names) []

/-- A registry entry of `MJML_COMPONENTS` (imported from `../constants`,
outside this module): only the two fields `renderEl` reads.  `defaultAttrs`
is optional, mirroring `componentDef?.defaultAttrs ?? {}`. -/
structure ComponentDef where
  type : String
  defaultAttrs : Option AttrMap

/-- `MJML_COMPONENTS.find(c => c.type === el.type)` (mjmlService.ts:115),
parametric in the registry. -/
def findComponent (registry : List ComponentDef) (t : String) : Option ComponentDef :=
  registry.find? (fun c => c.type == t)

/-- JS object spread `{...defaults, ...live}` on string records with unique
keys: the keys of `defaults` in order, values overridden by `live` on
collision, followed by the keys of `live` not present in `defaults`. -/
def mergeAttrs (defaults live : AttrMap) : AttrMap :=
  defaults.map (fun p => (p.1, (attrLookup live p.1).getD p.2)) ++
    live.filter (fun p => (attrLookup defaults p.1).isNone)

/-- `componentDef?.defaultAttrs ?? {}` (mjmlService.ts:117): the registry
defaults for a type, empty when the type or its `defaultAttrs` is absent. -/
def defaultAttrsFor (registry : List ComponentDef) (t : String) : AttrMap :=
  ((findComponent registry t).bind (fun c => c.defaultAttrs)).getD []

/-- The filtered effective attribute list of mjmlService.ts:116-122: merge
the registry's `defaultAttrs` under the node's live attributes, then drop
entries whose value is the empty string. -/
def emittedAttrs (registry : List ComponentDef) (el : MJElement) : AttrMap :=
  let mergedAttributes :=
    mergeAttrs (defaultAttrsFor registry el.type) el.attributes
  mergedAttributes.filter (fun p => p.2 != "")

/-- The `attrs` string of mjmlService.ts:121-124: space-joined
`key="value"` pairs of the emitted attributes. -/
def attrsOf (registry : List ComponentDef) (el : MJElement) : String :=
  String.intercalate " "
    ((emittedAttrs registry el).map (fun p => p.1 ++ "=\"" ++ p.2 ++ "\""))

/-- The `attrStr` of mjmlService.ts:126: a leading space before a non-empty
attribute list, nothing otherwise. -/
def attrStrOf (registry : List ComponentDef) (el : MJElement) : String :=
  let attrs := attrsOf registry el
  if attrs != "" then " " ++ attrs else ""

mutual

/-- `renderEl` (mjmlService.ts:112-144): render one element at the given
indentation. -/
def renderEl (registry : List ComponentDef) (el : MJElement) (indent : String) :
    String :=
  match el with
  | .mk t a c ch h =>
    let attrStr := attrStrOf registry (.mk t a c ch h)
    if SELF_CLOSING.contains t then
      indent ++ "<" ++ t ++ attrStr ++ " />"
    else
      let childrenStr := match ch with
        | some cs => String.intercalate "\n" (renderList registry cs (indent ++ "  "))
        | none => ""
      let contentStr := c.getD ""
      let inner :=
        String.intercalate "\n" ([contentStr, childrenStr].filter (fun s => s != ""))
      if inner == "" then
        indent ++ "<" ++ t ++ attrStr ++ "></" ++ t ++ ">"
      else if inner.data.contains '\n' then
        indent ++ "<" ++ t ++ attrStr ++ ">\n" ++ inner ++ "\n" ++ indent ++ "</" ++ t ++ ">"
      else
        indent ++ "<" ++ t ++ attrStr ++ ">" ++ inner ++ "</" ++ t ++ ">"
termination_by sizeOf el

/-- `el.children?.map(c => renderEl(c, indent + '  '))` from
mjmlService.ts:132. -/
def renderList (registry : List ComponentDef) (els : List MJElement) (indent : String) :
    List String :=
  match els with
  | [] => []
  | el :: rest => renderEl registry el indent :: renderList registry rest indent
termination_by sizeOf els

end

/-! The locals of `generateMJML` (mjmlService.ts:101-182), one definition
per `const`, so theorems can speak about the intermediate values. -/

/-- `visible` (mjmlService.ts:108). -/
def visibleOf (elements : List MJElement) : List MJElement :=
  stripHidden elements

/-- `headEls` (mjmlService.ts:109). -/
def headElsOf (elements : List MJElement) : List MJElement :=
  (visibleOf elements).filter (fun el => HEAD_TYPES.contains el.type)

/-- `bodyEls` (mjmlService.ts:110). -/
def bodyElsOf (elements : List MJElement) : List MJElement :=
  (visibleOf elements).filter (fun el => !HEAD_TYPES.contains el.type)

/-- `manualFontEls` (mjmlService.ts:147). -/
def manualFontElsOf (elements : List MJElement) : List MJElement :=
  (headElsOf elements).filter (fun el => el.type == "mj-font")

/-- `alreadyDeclared` as initialised at mjmlService.ts:148. -/
def alreadyDeclaredOf (elements : List MJElement) : List String :=
  declaredFontNames (manualFontElsOf elements)

/-- The baseline loop (mjmlService.ts:153-158).  The source pushes
formatted `<mj-font .../>` lines; we record the `(name, url)` of each
pushed line together with the updated `alreadyDeclared` set. -/
def injectBaseline (declared : List String) :
    List (String × String) × List String :=
  DEFAULT_GOOGLE_FONTS.foldl (fun acc f =>
    if acc.2.contains (jsToLower f.name) then acc
    else (acc.1 ++ [(f.name, f.url)], acc.2 ++ [jsToLower f.name]))
    ([], declared)

/-- The body-font loop (mjmlService.ts:162-166): inject each used font that
is neither a system font nor already declared, as `(name, url)` pairs. -/
def injectBodyFonts (declared : List String) (usedFonts : List String) :
    List (String × String) :=
  usedFonts.foldl (fun lines font =>
    if SYSTEM_FONTS.contains (jsToLower font) then lines
    else if declared.contains (jsToLower font) then lines
    else lines ++ [(font, googleFontsUrl font)]) []

/-- The formatted line pushed onto `autoFontLines` for a `(name, url)`
pair (mjmlService.ts:155 and 165). -/
def fontLine (p : String × String) : String :=
  "    <mj-font name=\"" ++ p.1 ++ "\" href=\"" ++ p.2 ++ "\" />"

/-- The `(name, url)` pairs behind `autoFontLines` after both loops:
baseline fonts first, then body-discovered fonts. -/
def autoFontsOf (elements : List MJElement) : List (String × String) :=
  let step1 := injectBaseline (alreadyDeclaredOf elements)
  step1.1 ++ injectBodyFonts step1.2 (collectFontsFromElements (bodyElsOf elements))

/-- `autoFontLines` (mjmlService.ts:150-166). -/
def autoFontLinesOf (elements : List MJElement) : List String :=
  (autoFontsOf elements).map fontLine

/-- `manualHeadLines` (mjmlService.ts:169). -/
def manualHeadLinesOf (registry : List ComponentDef) (elements : List MJElement) :
    String :=
  String.intercalate "\n" ((headElsOf elements).map (fun el => renderEl registry el "    "))

/-- `autoFontBlock` (mjmlService.ts:170). -/
def autoFontBlockOf (elements : List MJElement) : String :=
  String.intercalate "\n" (autoFontLinesOf elements)

/-- `headContent` (mjmlService.ts:172). -/
def headContentOf (registry : List ComponentDef) (elements : List MJElement) :
    String :=
  String.intercalate "\n"
    (([manualHeadLinesOf registry elements, autoFontBlockOf elements]).filter
      (fun s => s != ""))

/-- `headBlock` (mjmlService.ts:173-175). -/
def headBlockOf (registry : List ComponentDef) (elements : List MJElement) :
    String :=
  let hc := headContentOf registry elements
  if hc != "" then "  <mj-head>\n" ++ hc ++ "\n  </mj-head>" else ""

/-- `bodyBlock` (mjmlService.ts:178). -/
def bodyBlockOf (registry : List ComponentDef) (elements : List MJElement) :
    String :=
  "  <mj-body>\n" ++
    String.intercalate "\n" ((bodyElsOf elements).map (fun el => renderEl registry el "    ")) ++
    "\n  </mj-body>"

/-- `generateMJML` (mjmlService.ts:101-182), parametric in the
`MJML_COMPONENTS` registry. -/
def generateMJML (registry : List ComponentDef) (elements : List MJElement) :
    String :=
  let parts :=
    ([headBlockOf registry elements, bodyBlockOf registry elements]).filter
      (fun s => s != "")
  "<mjml>\n" ++ String.intercalate "\n" parts ++ "\n</mjml>"

/-! ## Occurrence of a node in a forest -/

/-- A node occurs in a forest when it is a top-level member or occurs in
the children of a member, at any depth. -/
inductive OccursIn : MJElement → List MJElement → Prop where
  | here (n : MJElement) (els : List MJElement) : OccursIn n (n :: els)
  | there {n el : MJElement} {els : List MJElement} :
      OccursIn n els → OccursIn n (el :: els)
  | down {n : MJElement} {t : String} {a : AttrMap} {c : Option String}
      {cs els : List MJElement} {h : Bool} :
      OccursIn n cs → OccursIn n (.mk t a c (some cs) h :: els)

/-! ## Concrete inputs used to instantiate the theorems -/

/-- The fixed URL of the baseline `Inter` font (mjmlService.ts:48). -/
def interUrl : String :=
  "https://fonts.googleapis.com/css2?family=Inter:wght@300;400;500;700&display=swap"

/-- A visible text leaf. -/
def exText : MJElement := .mk "mj-text" [] (some "inner") none false

/-- A hidden section with a visible child. -/
def exHiddenSection : MJElement := .mk "mj-section" [] none (some [exText]) true

/-- A sample registry slice with defaults for two types. -/
def exRegistry : List ComponentDef :=
  [⟨"mj-image", some [("alt", "default"), ("width", "600px")]⟩,
   ⟨"mj-text", some [("color", "#000000")]⟩]

/-- A self-closing image node whose `content` and `children` are populated
and whose live `alt` is blank. -/
def exImage : MJElement :=
  .mk "mj-image" [("src", "logo.png"), ("alt", "")] (some "ignored")
    (some [exText]) false

/-- A manual head font declaration for Open Sans. -/
def exOpenSansFont : MJElement :=
  .mk "mj-font"
    [("name", "Open Sans"), ("href", "https://example.com/open-sans.css")]
    none none false

/-- A body text node using Open Sans as its primary font. -/
def exOpenSansText : MJElement :=
  .mk "mj-text" [("font-family", "\"Open Sans\", Arial, sans-serif")]
    (some "Hi") none false

/-- Manual Open Sans declaration plus a body node using Open Sans. -/
def exDupFonts : List MJElement :=
  [exOpenSansFont, .mk "mj-section" [] none (some [exOpenSansText]) false]

/-- A body node whose font-family is the system font Arial. -/
def exArial : List MJElement :=
  [.mk "mj-text" [("font-family", "Arial")] (some "x") none false]

/-- A body node using Georgia. -/
def exGeorgia : MJElement :=
  .mk "mj-text" [("font-family", "Georgia")] (some "Hello") none false

/-- A head-type `mj-title` node. -/
def exTitle : MJElement := .mk "mj-title" [] (some "My Title") none false

/-- A body section with a head-type node nested inside it. -/
def exNestedHead : List MJElement :=
  [.mk "mj-section" [] none (some [exTitle]) false]

/-- A leaf node of a type present in no registry, with one blank
attribute. -/
def exUnknown : MJElement :=
  .mk "my-widget" [("data-x", "1"), ("blank", "")] (some "hey") none false

/-! ## Hidden-node filtering (C1) -/

theorem stripHidden_nil : stripHidden [] = [] := by
  simp only [stripHidden.eq_1]

theorem stripHidden_cons (t : String) (a : AttrMap) (c : Option String)
    (ch : Option (List MJElement)) (h : Bool) (els : List MJElement) :
    stripHidden (.mk t a c ch h :: els) =
      if h then stripHidden els
      else .mk t a c (ch.map stripHidden) h :: stripHidden els := by
  cases ch with
  | none => rw [stripHidden.eq_3]; rfl
  | some cs => rw [stripHidden.eq_2]; rfl

theorem stripHidden_idem (els : List MJElement) :
    stripHidden (stripHidden els) = stripHidden els := by
  induction els using stripHidden.induct with
  | case1 => simp [stripHidden_nil]
  | case2 t a c ch els ih => simp [stripHidden_cons, ih]
  | case3 t a c ch h els hh ihch ih =>
    cases ch with
    | none => simp [stripHidden_cons, hh, ih]
    | some cs => simp [stripHidden_cons, hh, ih]; exact ihch

theorem occursIn_stripHidden_not_hidden (els : List MJElement) :
    ∀ n, OccursIn n (stripHidden els) → n.hidden = false := by
  induction els using stripHidden.induct with
  | case1 => intro n hn; rw [stripHidden_nil] at hn; cases hn
  | case2 t a c ch els ih =>
    intro n hn
    rw [stripHidden_cons] at hn
    simp only [if_pos rfl] at hn
    exact ih n hn
  | case3 t a c ch h els hh ihch ih =>
    intro n hn
    rw [stripHidden_cons, if_neg hh] at hn
    cases ch with
    | none =>
      cases hn with
      | here => simp [MJElement.hidden, show h = false by simpa using hh]
      | there h2 => exact ih n h2
    | some cs =>
      cases hn with
      | here => simp [MJElement.hidden, show h = false by simpa using hh]
      | there h2 => exact ih n h2
      | down h2 => exact ihch n h2

theorem stripHidden_drops_hidden (xs : List MJElement) :
    ∀ (el : MJElement) (ys : List MJElement), el.hidden = true →
      stripHidden (xs ++ el :: ys) = stripHidden (xs ++ ys) := by
  induction xs with
  | nil =>
    intro el ys hel
    obtain ⟨t, a, c, ch, h⟩ := el
    simp only [MJElement.hidden] at hel
    simp [stripHidden_cons, hel]
  | cons hd tl ih =>
    intro el ys hel
    obtain ⟨t, a, c, ch, h⟩ := hd
    cases h with
    | true => simpa [stripHidden_cons] using ih el ys hel
    | false => simp [stripHidden_cons, ih el ys hel]

/-- C1.  Hidden-node exclusion: no node occurring anywhere in the filtered
copy has its hidden flag set; a hidden element at any position is removed
together with its entire subtree (regardless of its descendants' flags,
which the removal never inspects); and serializing a tree is the same as
serializing its filtered copy. -/
theorem hidden_node_exclusion (registry : List ComponentDef) (els : List MJElement) :
    (∀ n, OccursIn n (stripHidden els) → n.hidden = false) ∧
    (∀ xs (el : MJElement) ys, el.hidden = true →
      stripHidden (xs ++ el :: ys) = stripHidden (xs ++ ys)) ∧
    generateMJML registry els = generateMJML registry (stripHidden els) := by
  refine ⟨occursIn_stripHidden_not_hidden els, fun xs el ys h => stripHidden_drops_hidden xs el ys h, ?_⟩
  simp only [generateMJML, headBlockOf, headContentOf, manualHeadLinesOf,
    autoFontBlockOf, autoFontLinesOf, autoFontsOf, alreadyDeclaredOf,
    manualFontElsOf, headElsOf, bodyElsOf, bodyBlockOf, visibleOf,
    stripHidden_idem]

/-- C1 witness: the second conjunct applied to a concrete hidden section
(whose child is itself visible) removes the whole subtree. -/
theorem hidden_node_exclusion_witness :
    stripHidden ([exText] ++ exHiddenSection :: [exText]) =
      stripHidden ([exText] ++ [exText]) :=
  (hidden_node_exclusion [] []).2.1 [exText] exHiddenSection [exText] rfl

/-! ## Attribute merging and emission (C2) -/

theorem attrLookup_nil (k : String) : attrLookup [] k = none := rfl

theorem attrLookup_cons (k1 v1 : String) (m : AttrMap) (k : String) :
    attrLookup ((k1, v1) :: m) k = if k1 = k then some v1 else attrLookup m k := by
  simp only [attrLookup, List.find?_cons]
  by_cases h : k1 = k
  · simp [h]
  · rw [show (k1 == k) = false by simp [h]]
    simp [h]

theorem attrLookup_eq_none_iff (m : AttrMap) (k : String) :
    attrLookup m k = none ↔ ∀ p ∈ m, p.1 ≠ k := by
  simp [attrLookup, List.find?_eq_none]

theorem attrLookup_append (A B : AttrMap) (k : String) :
    attrLookup (A ++ B) k = (attrLookup A k).or (attrLookup B k) := by
  simp only [attrLookup, List.find?_append]
  cases List.find? (fun p => p.1 == k) A <;> simp

theorem attrLookup_map_override (D L : AttrMap) (k : String) :
    attrLookup (D.map (fun p => (p.1, (attrLookup L p.1).getD p.2))) k =
      (attrLookup D k).map (fun v => (attrLookup L k).getD v) := by
  induction D with
  | nil => rfl
  | cons hd tl ih =>
    obtain ⟨k0, v0⟩ := hd
    by_cases h : k0 = k
    · subst h; simp [attrLookup_cons]
    · simp [attrLookup_cons, h, ih]

theorem attrLookup_filter_not_in (L D : AttrMap) (k : String)
    (h : attrLookup D k = none) :
    attrLookup (L.filter (fun p => (attrLookup D p.1).isNone)) k =
      attrLookup L k := by
  induction L with
  | nil => rfl
  | cons hd tl ih =>
    obtain ⟨k1, v1⟩ := hd
    by_cases hk : k1 = k
    · subst hk
      simp [List.filter_cons, attrLookup_cons, h]
    · simp only [List.filter_cons]
      by_cases hp : (attrLookup D k1).isNone
      · simp [hp, attrLookup_cons, hk, ih]
      · simp [hp, attrLookup_cons, hk, ih]

theorem attrLookup_mergeAttrs (D L : AttrMap) (k : String) :
    attrLookup (mergeAttrs D L) k =
      match attrLookup D k with
      | some v => some ((attrLookup L k).getD v)
      | none => attrLookup L k := by
  unfold mergeAttrs
  rw [attrLookup_append, attrLookup_map_override]
  cases hD : attrLookup D k with
  | some v => simp
  | none => simp [attrLookup_filter_not_in L D k hD]

theorem attrLookup_filter_none (m : AttrMap) (q : String × String → Bool)
    (k : String) (h : attrLookup m k = none) :
    attrLookup (m.filter q) k = none := by
  rw [attrLookup_eq_none_iff] at h ⊢
  intro p hp
  exact h p (List.mem_filter.mp hp).1

theorem attrLookup_filter_val (m : AttrMap) (pred : String → Bool) (k : String)
    (hnd : (m.map Prod.fst).Nodup) :
    attrLookup (m.filter (fun p => pred p.2)) k =
      (attrLookup m k).bind (fun v => if pred v then some v else none) := by
  induction m with
  | nil => rfl
  | cons hd tl ih =>
    obtain ⟨k1, v1⟩ := hd
    simp only [List.map_cons, List.nodup_cons] at hnd
    obtain ⟨hk1, hnd'⟩ := hnd
    by_cases hk : k1 = k
    · subst hk
      have htl : attrLookup tl k1 = none := by
        rw [attrLookup_eq_none_iff]
        intro p hp hpk
        exact hk1 (hpk ▸ List.mem_map_of_mem Prod.fst hp)
      by_cases hp : pred v1
      · simp [List.filter_cons, hp, attrLookup_cons]
      · simp [List.filter_cons, hp, attrLookup_cons,
          attrLookup_filter_none tl _ k1 htl]
    · simp only [List.filter_cons]
      by_cases hp : pred v1
      · simp [hp, attrLookup_cons, hk, ih hnd']
      · simp [hp, attrLookup_cons, hk, ih hnd']

theorem mergeAttrs_keys_nodup (D L : AttrMap)
    (hD : (D.map Prod.fst).Nodup) (hL : (L.map Prod.fst).Nodup) :
    ((mergeAttrs D L).map Prod.fst).Nodup := by
  unfold mergeAttrs
  rw [List.map_append, List.nodup_append]
  refine ⟨?_, ?_, ?_⟩
  · rw [List.map_map]
    exact hD
  · exact ((List.filter_sublist L).map Prod.fst).nodup hL
  · intro x hx hx2
    rw [List.map_map] at hx
    simp only [List.mem_map] at hx2
    obtain ⟨p, hp, hpx⟩ := hx2
    have hnone := (List.mem_filter.mp hp).2
    rw [Option.isNone_iff_eq_none, attrLookup_eq_none_iff] at hnone
    simp only [List.mem_map, Function.comp] at hx
    obtain ⟨q, hq, hqx⟩ := hx
    exact hnone q hq (by rw [hqx, hpx])

/-- C2.  Effective attribute emission: looking up any key in the emitted
attribute list gives the node's live value when present and non-empty, the
registry default when the key is absent from the live attributes and the
default is non-empty, and nothing when the governing value is the empty
string.  In particular a live `""` suppresses a non-empty default, and a
default for a key absent from the live attributes is still emitted. -/
theorem effective_attribute_emission (registry : List ComponentDef)
    (el : MJElement) (k : String)
    (hd : ((defaultAttrsFor registry el.type).map Prod.fst).Nodup)
    (hl : (el.attributes.map Prod.fst).Nodup) :
    (attrLookup (emittedAttrs registry el) k =
      match attrLookup el.attributes k with
      | some v => if v = "" then none else some v
      | none =>
        match attrLookup (defaultAttrsFor registry el.type) k with
        | some v => if v = "" then none else some v
        | none => none) ∧
    (attrLookup el.attributes k = some "" →
      attrLookup (emittedAttrs registry el) k = none) ∧
    (∀ v, attrLookup el.attributes k = none →
      attrLookup (defaultAttrsFor registry el.type) k = some v → v ≠ "" →
      attrLookup (emittedAttrs registry el) k = some v) := by
  have hmain : attrLookup (emittedAttrs registry el) k =
      match attrLookup el.attributes k with
      | some v => if v = "" then none else some v
      | none =>
        match attrLookup (defaultAttrsFor registry el.type) k with
        | some v => if v = "" then none else some v
        | none => none := by
    simp only [emittedAttrs]
    rw [attrLookup_filter_val (mergeAttrs (defaultAttrsFor registry el.type) el.attributes)
        (fun v => v != "") k (mergeAttrs_keys_nodup _ _ hd hl),
      attrLookup_mergeAttrs]
    cases hD : attrLookup (defaultAttrsFor registry el.type) k with
    | some v =>
      cases hL : attrLookup el.attributes k with
      | some w => by_cases hw : w = "" <;> simp [hw]
      | none => by_cases hv : v = "" <;> simp [hv]
    | none =>
      cases hL : attrLookup el.attributes k with
      | some w => by_cases hw : w = "" <;> simp [hw]
      | none => simp
  refine ⟨hmain, ?_, ?_⟩
  · intro h0
    rw [hmain, h0]
    simp
  · intro v hnone hsome hv
    rw [hmain, hnone, hsome]
    simp [hv]

/-- C2 witness: with the sample registry, the image node's blank live
`alt` suppresses the non-empty default, while the default `width` (absent
from the live attributes) is still emitted. -/
theorem effective_attribute_emission_witness :
    attrLookup (emittedAttrs exRegistry exImage) "alt" = none ∧
    attrLookup (emittedAttrs exRegistry exImage) "width" = some "600px" :=
  ⟨(effective_attribute_emission exRegistry exImage "alt"
      (by decide) (by decide)).2.1 rfl,
   (effective_attribute_emission exRegistry exImage "width"
      (by decide) (by decide)).2.2 "600px" rfl rfl (by decide)⟩

/-! ## Self-closing rendering (C3) -/

/-- C3.  Self-closing fidelity: a node whose type is in `SELF_CLOSING`
renders as a single empty-element tag carrying only the filtered effective
attributes, and the result is unchanged under any replacement of the
node's `content` and `children` fields. -/
theorem self_closing_fidelity (registry : List ComponentDef) (t : String)
    (a : AttrMap) (c c2 : Option String) (ch ch2 : Option (List MJElement))
    (h h2 : Bool) (indent : String)
    (hsc : SELF_CLOSING.contains t = true) :
    renderEl registry (.mk t a c ch h) indent =
      indent ++ "<" ++ t ++ attrStrOf registry (.mk t a c ch h) ++ " />" ∧
    renderEl registry (.mk t a c ch h) indent =
      renderEl registry (.mk t a c2 ch2 h2) indent := by
  have key : ∀ (c : Option String) (ch : Option (List MJElement)) (h : Bool),
      renderEl registry (.mk t a c ch h) indent =
        indent ++ "<" ++ t ++ attrStrOf registry (.mk t a c ch h) ++ " />" := by
    intro c ch h
    cases ch with
    | none => rw [renderEl.eq_2, if_pos hsc]
    | some cs => rw [renderEl.eq_1, if_pos hsc]
  refine ⟨key c ch h, ?_⟩
  rw [key c ch h, key c2 ch2 h2]
  rfl

/-- C3 witness: the image node with populated `content` and `children`
still renders as one empty-element tag (and identically to the same node
with both fields empty). -/
theorem self_closing_fidelity_witness :
    renderEl exRegistry exImage "  " =
      "  <mj-image width=\"600px\" src=\"logo.png\" />" :=
  ((self_closing_fidelity exRegistry "mj-image"
      [("src", "logo.png"), ("alt", "")] (some "ignored") none
      (some [exText]) none false false "  " (by decide)).1).trans (by decide)

/-! ## Baseline font injection (C4) -/

theorem headElsOf_nil : headElsOf [] = [] := by
  simp [headElsOf, visibleOf, stripHidden_nil]

theorem bodyElsOf_nil : bodyElsOf [] = [] := by
  simp [bodyElsOf, visibleOf, stripHidden_nil]

theorem bodyBlockOf_nil (registry : List ComponentDef) :
    bodyBlockOf registry [] = "  <mj-body>\n\n  </mj-body>" := by
  unfold bodyBlockOf
  rw [bodyElsOf_nil]
  simp only [List.map_nil]
  decide

theorem headBlockOf_nil (registry : List ComponentDef) :
    headBlockOf registry [] =
      "  <mj-head>\n    <mj-font name=\"Inter\" href=\"" ++ interUrl ++
        "\" />\n  </mj-head>" := by
  simp only [headBlockOf, headContentOf, manualHeadLinesOf, autoFontBlockOf,
    autoFontLinesOf, autoFontsOf, alreadyDeclaredOf, manualFontElsOf,
    headElsOf_nil, bodyElsOf_nil, List.filter_nil, List.map_nil,
    collectFontsFromElements, collectWalk.eq_1]
  decide

/-- C4.  Baseline always injected: every `DEFAULT_GOOGLE_FONTS` entry whose
name is not declared (case-insensitively) by a visible manual `mj-font`
node is injected into the auto-font list regardless of body usage; and
serializing the empty tree yields a document whose head holds exactly the
Inter declaration with its fixed URL and whose body is an empty
`<mj-body>` wrapper. -/
theorem baseline_always_injected (registry : List ComponentDef)
    (els : List MJElement) :
    (∀ f ∈ DEFAULT_GOOGLE_FONTS, jsToLower f.name ∉ alreadyDeclaredOf els →
      (f.name, f.url) ∈ autoFontsOf els) ∧
    generateMJML registry [] =
      "<mjml>\n  <mj-head>\n    <mj-font name=\"Inter\" href=\"" ++ interUrl ++
        "\" />\n  </mj-head>\n  <mj-body>\n\n  </mj-body>\n</mjml>" := by
  constructor
  · intro f hf hnd
    simp only [DEFAULT_GOOGLE_FONTS, List.mem_singleton] at hf
    subst hf
    have hlow : (jsToLower "Inter") = "inter" := by decide
    have hc : (alreadyDeclaredOf els).contains "inter" = false := by
      rw [Bool.eq_false_iff]
      intro hcon
      exact hnd (by simpa [hlow] using List.elem_iff.mp hcon)
    simp only [autoFontsOf, injectBaseline, DEFAULT_GOOGLE_FONTS, List.foldl_cons,
      List.foldl_nil]
    rw [hlow, hc]
    simp
  · simp only [generateMJML, headBlockOf_nil, bodyBlockOf_nil]
    decide

/-- C4 witness: on the empty tree nothing is declared, so the Inter
baseline entry is injected. -/
theorem baseline_always_injected_witness :
    ("Inter", interUrl) ∈ autoFontsOf [] :=
  (baseline_always_injected [] []).1 ⟨"Inter", interUrl⟩
    (List.mem_singleton.mpr rfl)
    (by simp [alreadyDeclaredOf, manualFontElsOf, headElsOf_nil, declaredFontNames])

/-! ## Font deduplication and system-font exclusion (C5, C6) -/

theorem contains_eq_false_iff (l : List String) (x : String) :
    l.contains x = false ↔ x ∉ l := by
  rw [Bool.eq_false_iff]
  exact not_congr List.elem_iff

theorem injectBodyFonts_mem (declared used : List String) (name url : String)
    (h : (name, url) ∈ injectBodyFonts declared used) :
    name ∈ used ∧ url = googleFontsUrl name ∧
    SYSTEM_FONTS.contains (jsToLower name) = false ∧
    declared.contains (jsToLower name) = false := by
  suffices haux : ∀ (used2 : List String) (acc : List (String × String)),
      (name, url) ∈ used2.foldl (fun lines font =>
        if SYSTEM_FONTS.contains (jsToLower font) then lines
        else if declared.contains (jsToLower font) then lines
        else lines ++ [(font, googleFontsUrl font)]) acc →
      (name, url) ∈ acc ∨
        (name ∈ used2 ∧ url = googleFontsUrl name ∧
         SYSTEM_FONTS.contains (jsToLower name) = false ∧
         declared.contains (jsToLower name) = false) by
    rcases haux used [] h with h0 | h1
    · simp at h0
    · exact h1
  intro used2
  induction used2 with
  | nil => intro acc h2; exact Or.inl h2
  | cons font rest ih =>
    intro acc h2
    simp only [List.foldl_cons] at h2
    rcases ih _ h2 with h0 | h1
    · by_cases hs : SYSTEM_FONTS.contains (jsToLower font) = true
      · rw [if_pos hs] at h0
        exact Or.inl h0
      · rw [if_neg hs] at h0
        by_cases hd : declared.contains (jsToLower font) = true
        · rw [if_pos hd] at h0
          exact Or.inl h0
        · rw [if_neg hd] at h0
          rcases List.mem_append.mp h0 with h3 | h3
          · exact Or.inl h3
          · simp only [List.mem_singleton] at h3
            have hn : name = font := congrArg Prod.fst h3
            have hu : url = googleFontsUrl font := congrArg Prod.snd h3
            subst hn
            exact Or.inr ⟨List.mem_cons_self _ _, hu,
              Bool.eq_false_iff.mpr hs, Bool.eq_false_iff.mpr hd⟩
    · exact Or.inr ⟨List.mem_cons_of_mem _ h1.1, h1.2⟩

/-- Every string already declared stays declared after the baseline loop. -/
theorem injectBaseline_declared_sub (declared : List String) (x : String)
    (h : x ∈ declared) : x ∈ (injectBaseline declared).2 := by
  simp only [injectBaseline, DEFAULT_GOOGLE_FONTS, List.foldl_cons, List.foldl_nil]
  by_cases hc : declared.contains (jsToLower "Inter") = true
  · rw [if_pos hc]
    exact h
  · rw [if_neg hc]
    exact List.mem_append_left _ h

/-- C5.  No duplicate font declarations: any auto-injected `(name, url)`
pair has a name that is not among the manually declared (trimmed,
lower-cased) font names; on the concrete tree with a manual Open Sans
declaration and a body node using Open Sans, the auto-injected list is
exactly the Inter baseline (no Open Sans entry) and the manual declaration
is the single manual font element. -/
theorem no_duplicate_font_declarations :
    (∀ (els : List MJElement) (name url : String),
      (name, url) ∈ autoFontsOf els →
      (alreadyDeclaredOf els).contains (jsToLower name) = false) ∧
    autoFontsOf exDupFonts = [("Inter", interUrl)] ∧
    manualFontElsOf exDupFonts = [exOpenSansFont] := by
  have hv : visibleOf exDupFonts = exDupFonts := by
    simp [visibleOf, exDupFonts, exOpenSansFont, exOpenSansText,
      stripHidden_cons, stripHidden_nil]
  refine ⟨?_, ?_, ?_⟩
  · intro els name url hmem
    rcases List.mem_append.mp hmem with h0 | h0
    · by_cases hc : (alreadyDeclaredOf els).contains (jsToLower "Inter") = true
      · simp only [injectBaseline, DEFAULT_GOOGLE_FONTS, List.foldl_cons,
          List.foldl_nil, if_pos hc] at h0
        simp at h0
      · simp only [injectBaseline, DEFAULT_GOOGLE_FONTS, List.foldl_cons,
          List.foldl_nil, if_neg hc] at h0
        simp only [List.nil_append, List.mem_singleton] at h0
        have hn : name = "Inter" := congrArg Prod.fst h0
        subst hn
        exact Bool.eq_false_iff.mpr hc
    · have hchar := injectBodyFonts_mem _ _ _ _ h0
      have hnotin := (contains_eq_false_iff _ _).mp hchar.2.2.2
      rw [contains_eq_false_iff]
      intro hin
      exact hnotin (injectBaseline_declared_sub _ _ hin)
  · have hdecl : alreadyDeclaredOf exDupFonts = ["open sans"] := by
      unfold alreadyDeclaredOf manualFontElsOf headElsOf
      rw [hv]
      rfl
    have hbody : bodyElsOf exDupFonts =
        [.mk "mj-section" [] none (some [exOpenSansText]) false] := by
      unfold bodyElsOf
      rw [hv]
      rfl
    have hused : collectFontsFromElements
        [MJElement.mk "mj-section" [] none (some [exOpenSansText]) false] =
        ["Open Sans"] := by
      simp only [collectFontsFromElements, exOpenSansText, collectWalk.eq_3,
        collectWalk.eq_2, collectWalk.eq_1]
      decide
    unfold autoFontsOf
    rw [hdecl, hbody, hused]
    decide
  · unfold manualFontElsOf headElsOf
    rw [hv]
    rfl

/-- C5 witness: the general statement applied to the Inter entry of the
concrete duplicate-font tree. -/
theorem no_duplicate_font_declarations_witness :
    (alreadyDeclaredOf exDupFonts).contains (jsToLower "Inter") = false :=
  no_duplicate_font_declarations.1 exDupFonts "Inter" interUrl
    (by rw [no_duplicate_font_declarations.2.1]
        exact List.mem_singleton.mpr rfl)

/-- C6.  System font exclusion: no auto-injected `(name, url)` pair has a
name whose lower-casing is in the fixed system-font list; in particular a
body node with `font-family: Arial` yields only the Inter baseline
injection. -/
theorem system_font_exclusion :
    (∀ (els : List MJElement) (name url : String),
      (name, url) ∈ autoFontsOf els →
      SYSTEM_FONTS.contains (jsToLower name) = false) ∧
    autoFontsOf exArial = [("Inter", interUrl)] := by
  constructor
  · intro els name url hmem
    rcases List.mem_append.mp hmem with h0 | h0
    · by_cases hc : (alreadyDeclaredOf els).contains (jsToLower "Inter") = true
      · simp only [injectBaseline, DEFAULT_GOOGLE_FONTS, List.foldl_cons,
          List.foldl_nil, if_pos hc] at h0
        simp at h0
      · simp only [injectBaseline, DEFAULT_GOOGLE_FONTS, List.foldl_cons,
          List.foldl_nil, if_neg hc] at h0
        simp only [List.nil_append, List.mem_singleton] at h0
        have hn : name = "Inter" := congrArg Prod.fst h0
        subst hn
        decide
    · exact (injectBodyFonts_mem _ _ _ _ h0).2.2.1
  · have hv : visibleOf exArial = exArial := by
      simp [visibleOf, exArial, stripHidden_cons, stripHidden_nil]
    have hdecl : alreadyDeclaredOf exArial = [] := by
      unfold alreadyDeclaredOf manualFontElsOf headElsOf
      rw [hv]
      rfl
    have hbody : bodyElsOf exArial = exArial := by
      unfold bodyElsOf
      rw [hv]
      rfl
    have hused : collectFontsFromElements exArial = ["Arial"] := by
      simp only [collectFontsFromElements, exArial, collectWalk.eq_2,
        collectWalk.eq_1]
      decide
    unfold autoFontsOf
    rw [hdecl, hbody, hused]
    decide

/-- C6 witness: the general statement applied to the Inter entry of the
concrete Arial tree. -/
theorem system_font_exclusion_witness :
    SYSTEM_FONTS.contains (jsToLower "Inter") = false :=
  system_font_exclusion.1 exArial "Inter" interUrl
    (by rw [system_font_exclusion.2]
        exact List.mem_singleton.mpr rfl)

/-! ## Font collection and primary-name extraction (C7) -/

theorem mem_setAdd_self (s : List String) (x : String) : x ∈ setAdd s x := by
  unfold setAdd
  by_cases hc : s.contains x = true
  · rw [if_pos hc]
    exact List.elem_iff.mp hc
  · rw [if_neg hc]
    exact List.mem_append_right _ (List.mem_singleton.mpr rfl)

theorem mem_setAdd_of_mem (s : List String) (y x : String) (h : x ∈ s) :
    x ∈ setAdd s y := by
  unfold setAdd
  by_cases hc : s.contains y = true
  · rw [if_pos hc]
    exact h
  · rw [if_neg hc]
    exact List.mem_append_left _ h

theorem mem_setAdd_cases (s : List String) (y x : String)
    (h : x ∈ setAdd s y) : x ∈ s ∨ x = y := by
  unfold setAdd at h
  by_cases hc : s.contains y = true
  · rw [if_pos hc] at h
    exact Or.inl h
  · rw [if_neg hc] at h
    rcases List.mem_append.mp h with h1 | h1
    · exact Or.inl h1
    · exact Or.inr (List.mem_singleton.mp h1)

theorem setAdd_nodup (s : List String) (y : String) (h : s.Nodup) :
    (setAdd s y).Nodup := by
  unfold setAdd
  by_cases hc : s.contains y = true
  · rw [if_pos hc]
    exact h
  · rw [if_neg hc]
    rw [List.nodup_append]
    refine ⟨h, List.nodup_singleton y, ?_⟩
    intro x hx hy
    rw [List.mem_singleton] at hy
    subst hy
    exact (contains_eq_false_iff s x).mp (Bool.eq_false_iff.mpr hc) hx

theorem walkStep_sub (a : AttrMap) (fonts : List String) (x : String)
    (h : x ∈ fonts) : x ∈ walkStep a fonts := by
  unfold walkStep
  cases attrLookup a "font-family" with
  | none => exact h
  | some ff =>
    dsimp only
    by_cases hff : (ff != "") = true
    · rw [if_pos hff]
      by_cases hp : (primaryFontName ff != "") = true
      · rw [if_pos hp]
        exact mem_setAdd_of_mem _ _ _ h
      · rw [if_neg hp]
        exact h
    · rw [if_neg hff]
      exact h

theorem walkStep_mem (a : AttrMap) (fonts : List String) (x : String)
    (h : x ∈ walkStep a fonts) :
    x ∈ fonts ∨ ∃ ff, attrLookup a "font-family" = some ff ∧ ff ≠ "" ∧
      primaryFontName ff = x ∧ x ≠ "" := by
  unfold walkStep at h
  cases hl : attrLookup a "font-family" with
  | none => rw [hl] at h; exact Or.inl h
  | some ff =>
    rw [hl] at h
    dsimp only at h
    by_cases hff : (ff != "") = true
    · rw [if_pos hff] at h
      by_cases hp : (primaryFontName ff != "") = true
      · rw [if_pos hp] at h
        rcases mem_setAdd_cases _ _ _ h with h1 | h1
        · exact Or.inl h1
        · refine Or.inr ⟨ff, rfl, bne_iff_ne.mp hff, h1.symm, ?_⟩
          rw [h1]
          exact bne_iff_ne.mp hp
      · rw [if_neg hp] at h
        exact Or.inl h
    · rw [if_neg hff] at h
      exact Or.inl h

theorem walkStep_nodup (a : AttrMap) (fonts : List String)
    (h : fonts.Nodup) : (walkStep a fonts).Nodup := by
  unfold walkStep
  cases attrLookup a "font-family" with
  | none => exact h
  | some ff =>
    dsimp only
    by_cases hff : (ff != "") = true
    · rw [if_pos hff]
      by_cases hp : (primaryFontName ff != "") = true
      · rw [if_pos hp]
        exact setAdd_nodup _ _ h
      · rw [if_neg hp]
        exact h
    · rw [if_neg hff]
      exact h

theorem walkStep_adds (a : AttrMap) (fonts : List String) (ff : String)
    (hl : attrLookup a "font-family" = some ff) (hff : ff ≠ "")
    (hp : primaryFontName ff ≠ "") :
    primaryFontName ff ∈ walkStep a fonts := by
  unfold walkStep
  rw [hl]
  dsimp only
  rw [if_pos (bne_iff_ne.mpr hff), if_pos (bne_iff_ne.mpr hp)]
  exact mem_setAdd_self _ _

theorem collectWalk_sub (els : List MJElement) (fonts : List String) :
    ∀ x ∈ fonts, x ∈ collectWalk els fonts := by
  induction els, fonts using collectWalk.induct with
  | case1 fonts => intro x h; rw [collectWalk.eq_1]; exact h
  | case2 t a c h rest fonts ih =>
    intro x hx
    rw [collectWalk.eq_2]
    exact ih x (walkStep_sub _ _ _ hx)
  | case3 t a c cs h rest fonts ihcs ih =>
    intro x hx
    rw [collectWalk.eq_3]
    exact ih x (ihcs x (walkStep_sub _ _ _ hx))

theorem collectWalk_nodup (els : List MJElement) (fonts : List String)
    (h : fonts.Nodup) : (collectWalk els fonts).Nodup := by
  induction els, fonts using collectWalk.induct with
  | case1 fonts => rw [collectWalk.eq_1]; exact h
  | case2 t a c hd rest fonts ih =>
    rw [collectWalk.eq_2]
    exact ih (walkStep_nodup _ _ h)
  | case3 t a c cs hd rest fonts ihcs ih =>
    rw [collectWalk.eq_3]
    exact ih (ihcs (walkStep_nodup _ _ h))

theorem collectWalk_mem (els : List MJElement) (fonts : List String)
    (x : String) (h : x ∈ collectWalk els fonts) :
    x ∈ fonts ∨ ∃ n, OccursIn n els ∧ ∃ ff,
      attrLookup n.attributes "font-family" = some ff ∧ ff ≠ "" ∧
      primaryFontName ff = x ∧ x ≠ "" := by
  induction els, fonts using collectWalk.induct with
  | case1 fonts => rw [collectWalk.eq_1] at h; exact Or.inl h
  | case2 t a c hd rest fonts ih =>
    rw [collectWalk.eq_2] at h
    rcases ih h with h1 | h1
    · rcases walkStep_mem _ _ _ h1 with h2 | h2
      · exact Or.inl h2
      · exact Or.inr ⟨.mk t a c none hd, OccursIn.here _ _, h2⟩
    · obtain ⟨n, hocc, hrest⟩ := h1
      exact Or.inr ⟨n, OccursIn.there hocc, hrest⟩
  | case3 t a c cs hd rest fonts ihcs ih =>
    rw [collectWalk.eq_3] at h
    rcases ih h with h1 | h1
    · rcases ihcs h1 with h2 | h2
      · rcases walkStep_mem _ _ _ h2 with h3 | h3
        · exact Or.inl h3
        · exact Or.inr ⟨.mk t a c (some cs) hd, OccursIn.here _ _, h3⟩
      · obtain ⟨n, hocc, hcs⟩ := h2
        exact Or.inr ⟨n, OccursIn.down hocc, hcs⟩
    · obtain ⟨n, hocc, hrest⟩ := h1
      exact Or.inr ⟨n, OccursIn.there hocc, hrest⟩

theorem collectWalk_complete (n : MJElement) (els : List MJElement)
    (hocc : OccursIn n els) (ff : String)
    (hl : attrLookup n.attributes "font-family" = some ff) (hff : ff ≠ "")
    (hp : primaryFontName ff ≠ "") :
    ∀ fonts, primaryFontName ff ∈ collectWalk els fonts := by
  induction hocc with
  | here els2 =>
    intro fonts
    obtain ⟨t, a, c, ch, hd⟩ := n
    simp only [MJElement.attributes] at hl
    cases ch with
    | none =>
      rw [collectWalk.eq_2]
      exact collectWalk_sub _ _ _ (walkStep_adds _ _ _ hl hff hp)
    | some cs =>
      rw [collectWalk.eq_3]
      exact collectWalk_sub _ _ _
        (collectWalk_sub _ _ _ (walkStep_adds _ _ _ hl hff hp))
  | there hocc2 ih =>
    intro fonts
    rename_i el els2
    obtain ⟨t, a, c, ch, hd⟩ := el
    cases ch with
    | none =>
      rw [collectWalk.eq_2]
      exact ih _
    | some cs =>
      rw [collectWalk.eq_3]
      exact ih _
  | down hocc2 ih =>
    intro fonts
    rw [collectWalk.eq_3]
    exact collectWalk_sub _ _ _ (ih _)

/-- C7.  Primary font extraction: the spec's two examples hold; the
collected font list is duplicate-free (dedup by exact string); every
collected font is the non-empty primary name of the non-empty
`font-family` attribute of some node occurring in the forest; and
conversely every such primary name is collected. -/
theorem primary_font_extraction :
    primaryFontName "\"Open Sans\", Arial, sans-serif" = "Open Sans" ∧
    primaryFontName "Georgia" = "Georgia" ∧
    (∀ els, (collectFontsFromElements els).Nodup) ∧
    (∀ els f, f ∈ collectFontsFromElements els →
      ∃ n, OccursIn n els ∧ ∃ ff,
        attrLookup n.attributes "font-family" = some ff ∧ ff ≠ "" ∧
        primaryFontName ff = f ∧ f ≠ "") ∧
    (∀ els (n : MJElement) ff, OccursIn n els →
      attrLookup n.attributes "font-family" = some ff → ff ≠ "" →
      primaryFontName ff ≠ "" →
      primaryFontName ff ∈ collectFontsFromElements els) := by
  refine ⟨by decide, by decide, ?_, ?_, ?_⟩
  · intro els
    exact collectWalk_nodup els [] List.nodup_nil
  · intro els f h
    rcases collectWalk_mem els [] f h with h1 | h1
    · cases h1
    · exact h1
  · intro els n ff hocc hl hff hp
    exact collectWalk_complete n els hocc ff hl hff hp []

/-- C7 witness: completeness applied to a concrete Georgia node. -/
theorem primary_font_extraction_witness :
    primaryFontName "Georgia" ∈ collectFontsFromElements [exGeorgia] :=
  primary_font_extraction.2.2.2.2 [exGeorgia] exGeorgia "Georgia"
    (OccursIn.here exGeorgia []) rfl (by decide) (by decide)

/-! ## Head/body classification of nested head-type nodes (C8) -/

/-- C8 counterexample: a head-type `mj-title` nested inside a body
`mj-section` is NOT treated as a head node — the head partition of the
tree is empty, and the title is rendered inside the body block (the head
carries only the auto-injected Inter declaration). -/
theorem nested_head_counterexample :
    headElsOf exNestedHead = [] ∧
    bodyBlockOf [] exNestedHead =
      "  <mj-body>\n    <mj-section>      <mj-title>My Title</mj-title></mj-section>\n  </mj-body>" ∧
    headBlockOf [] exNestedHead =
      "  <mj-head>\n    <mj-font name=\"Inter\" href=\"" ++ interUrl ++
        "\" />\n  </mj-head>" := by
  have hv : visibleOf exNestedHead = exNestedHead := by
    simp [visibleOf, exNestedHead, exTitle, stripHidden_cons, stripHidden_nil]
  have hh : headElsOf exNestedHead = [] := by
    unfold headElsOf
    rw [hv]
    rfl
  have hb : bodyElsOf exNestedHead = exNestedHead := by
    unfold bodyElsOf
    rw [hv]
    rfl
  have hused : collectFontsFromElements exNestedHead = [] := by
    simp only [collectFontsFromElements, exNestedHead, exTitle,
      collectWalk.eq_3, collectWalk.eq_2, collectWalk.eq_1]
    decide
  refine ⟨hh, ?_, ?_⟩
  · unfold bodyBlockOf
    rw [hb]
    simp only [exNestedHead, exTitle, List.map_cons, List.map_nil,
      renderEl.eq_1, renderEl.eq_2, renderList.eq_def]
    decide
  · unfold headBlockOf headContentOf manualHeadLinesOf autoFontBlockOf
      autoFontLinesOf autoFontsOf alreadyDeclaredOf manualFontElsOf
    rw [hh, hb, hused]
    simp only [List.map_nil, List.filter_nil]
    decide

/-- C8 as amended.  Head/body partitioning inspects only top-level nodes:
the head partition is exactly the top-level visible nodes of head type, the
body partition the rest; children are always rendered in place under their
parent (whatever their type); and on the concrete nested tree the title is
emitted inside `<mj-body>` while the head carries only the Inter
baseline. -/
theorem head_classification_top_level_only (registry : List ComponentDef)
    (els cs : List MJElement) (ind : String) :
    headElsOf els = (visibleOf els).filter (fun el => HEAD_TYPES.contains el.type) ∧
    bodyElsOf els = (visibleOf els).filter (fun el => !HEAD_TYPES.contains el.type) ∧
    renderList registry cs ind = cs.map (fun c => renderEl registry c ind) ∧
    generateMJML [] exNestedHead =
      "<mjml>\n  <mj-head>\n    <mj-font name=\"Inter\" href=\"" ++ interUrl ++
        "\" />\n  </mj-head>\n  <mj-body>\n    <mj-section>      <mj-title>My Title</mj-title></mj-section>\n  </mj-body>\n</mjml>" := by
  refine ⟨rfl, rfl, ?_, ?_⟩
  · induction cs with
    | nil =>
      rw [renderList.eq_1]
      rfl
    | cons c2 rest ih =>
      rw [renderList.eq_def]
      dsimp only
      rw [ih, List.map_cons]
  · have hv : visibleOf exNestedHead = exNestedHead := by
      simp [visibleOf, exNestedHead, exTitle, stripHidden_cons, stripHidden_nil]
    have hh : headElsOf exNestedHead = [] := by
      unfold headElsOf
      rw [hv]
      rfl
    have hb : bodyElsOf exNestedHead = exNestedHead := by
      unfold bodyElsOf
      rw [hv]
      rfl
    have hused : collectFontsFromElements exNestedHead = [] := by
      simp only [collectFontsFromElements, exNestedHead, exTitle,
        collectWalk.eq_3, collectWalk.eq_2, collectWalk.eq_1]
      decide
    have hbody : bodyBlockOf [] exNestedHead =
        "  <mj-body>\n    <mj-section>      <mj-title>My Title</mj-title></mj-section>\n  </mj-body>" := by
      unfold bodyBlockOf
      rw [hb]
      simp only [exNestedHead, exTitle, List.map_cons, List.map_nil,
        renderEl.eq_1, renderEl.eq_2, renderList.eq_def]
      decide
    have hhead : headBlockOf [] exNestedHead =
        "  <mj-head>\n    <mj-font name=\"Inter\" href=\"" ++ interUrl ++
          "\" />\n  </mj-head>" := by
      unfold headBlockOf headContentOf manualHeadLinesOf autoFontBlockOf
        autoFontLinesOf autoFontsOf alreadyDeclaredOf manualFontElsOf
      rw [hh, hb, hused]
      simp only [List.map_nil, List.filter_nil]
      decide
    simp only [generateMJML, hbody, hhead]
    decide

/-! ## Totality and unknown-type recovery (C9) -/

/-- C9.  Unknown-type recovery: a node whose type has no registry entry is
rendered with empty defaults — its emitted attribute list is exactly its
own non-blank live attributes, and (for a childless node) its rendering is
identical to rendering against the empty registry, i.e. fully generic,
using the node's own type string.  (Totality of serialization over all
structurally valid trees is witnessed by `generateMJML` being a total Lean
function over all `List MJElement`.) -/
theorem unknown_type_recovery (registry : List ComponentDef) (el : MJElement)
    (indent : String) (h : findComponent registry el.type = none) :
    emittedAttrs registry el = el.attributes.filter (fun p => p.2 != "") ∧
    (el.children = none → renderEl registry el indent = renderEl [] el indent) := by
  have hdef : defaultAttrsFor registry el.type = [] := by
    unfold defaultAttrsFor
    rw [h]
    rfl
  have hemit : emittedAttrs registry el = el.attributes.filter (fun p => p.2 != "") := by
    unfold emittedAttrs
    rw [hdef]
    simp [mergeAttrs, attrLookup]
  refine ⟨hemit, ?_⟩
  intro hch
  obtain ⟨t, a, c, ch, hd⟩ := el
  simp only [MJElement.children] at hch
  subst hch
  have hattr : attrStrOf registry (.mk t a c none hd) =
      attrStrOf [] (.mk t a c none hd) := by
    unfold attrStrOf attrsOf
    rw [hemit]
    have h2 : emittedAttrs [] (MJElement.mk t a c none hd) =
        (MJElement.mk t a c none hd).attributes.filter (fun p => p.2 != "") := by
      unfold emittedAttrs defaultAttrsFor findComponent
      simp [mergeAttrs, attrLookup]
    rw [h2]
  rw [renderEl.eq_2, renderEl.eq_2, hattr]

/-- C9 witness: the unregistered `my-widget` node keeps exactly its own
non-blank attributes and renders identically to the empty registry. -/
theorem unknown_type_recovery_witness :
    emittedAttrs exRegistry exUnknown = [("data-x", "1")] ∧
    renderEl exRegistry exUnknown "    " = renderEl [] exUnknown "    " :=
  ⟨((unknown_type_recovery exRegistry exUnknown "    " rfl).1).trans (by decide),
   (unknown_type_recovery exRegistry exUnknown "    " rfl).2 rfl⟩

/-! ## The head wrapper is always emitted (C10) -/

theorem str_append_eq_empty_iff (x y : String) :
    x ++ y = "" ↔ x = "" ∧ y = "" := by
  constructor
  · intro h
    have hd : x.data ++ y.data = [] := congrArg String.data h
    rcases List.append_eq_nil.mp hd with ⟨hx, hy⟩
    exact ⟨String.ext hx, String.ext hy⟩
  · rintro ⟨hx, hy⟩
    subst hx
    subst hy
    rfl

theorem append_ne_empty_of_left (x y : String) (hx : x ≠ "") : x ++ y ≠ "" :=
  fun h => hx ((str_append_eq_empty_iff x y).mp h).1

theorem append_ne_empty_of_right (x y : String) (hy : y ≠ "") : x ++ y ≠ "" :=
  fun h => hy ((str_append_eq_empty_iff x y).mp h).2

theorem intercalate_go_ne_empty (s : String) :
    ∀ (as : List String) (acc : String), acc ≠ "" →
      String.intercalate.go acc s as ≠ "" := by
  intro as
  induction as with
  | nil =>
    intro acc hacc
    rw [String.intercalate.go]
    exact hacc
  | cons a rest ih =>
    intro acc hacc
    rw [String.intercalate.go]
    exact ih _ (append_ne_empty_of_left _ _ (append_ne_empty_of_left _ _ hacc))

theorem intercalate_cons_ne_empty (x : String) (xs : List String)
    (hx : x ≠ "") : String.intercalate "\n" (x :: xs) ≠ "" := by
  rw [String.intercalate]
  exact intercalate_go_ne_empty _ xs x hx

theorem fontLine_ne_empty (p : String × String) : fontLine p ≠ "" := by
  unfold fontLine
  exact append_ne_empty_of_right _ _ (by decide)

theorem renderEl_ne_empty (registry : List ComponentDef) (el : MJElement)
    (indent : String) : renderEl registry el indent ≠ "" := by
  obtain ⟨t, a, c, ch, hd⟩ := el
  cases ch with
  | none =>
    rw [renderEl.eq_2]
    by_cases hsc : SELF_CLOSING.contains t = true
    · rw [if_pos hsc]
      exact append_ne_empty_of_right _ _ (by decide)
    · rw [if_neg hsc]
      dsimp only
      split
      · exact append_ne_empty_of_right _ _ (by decide)
      · split
        · exact append_ne_empty_of_right _ _ (by decide)
        · exact append_ne_empty_of_right _ _ (by decide)
  | some cs =>
    rw [renderEl.eq_1]
    by_cases hsc : SELF_CLOSING.contains t = true
    · rw [if_pos hsc]
      exact append_ne_empty_of_right _ _ (by decide)
    · rw [if_neg hsc]
      dsimp only
      split
      · exact append_ne_empty_of_right _ _ (by decide)
      · split
        · exact append_ne_empty_of_right _ _ (by decide)
        · exact append_ne_empty_of_right _ _ (by decide)

/-- C10.  The head wrapper is always emitted: for every registry and every
input tree the assembled head content is non-empty — either the Inter
baseline is injected, or it was suppressed because a visible top-level
manual `mj-font` declares Inter, making the rendered manual head lines
non-empty — so the branch omitting the `<mj-head>` wrapper is
unreachable. -/
theorem head_wrapper_always_emitted (registry : List ComponentDef)
    (els : List MJElement) :
    headContentOf registry els ≠ "" ∧
    headBlockOf registry els =
      "  <mj-head>\n" ++ headContentOf registry els ++ "\n  </mj-head>" := by
  have hcontent : headContentOf registry els ≠ "" := by
    by_cases hc : (alreadyDeclaredOf els).contains (jsToLower "Inter") = true
    · -- a visible manual mj-font declares Inter, so the head partition is
      -- non-empty and its rendered lines are non-empty
      have hman : manualFontElsOf els ≠ [] := by
        intro h0
        unfold alreadyDeclaredOf at hc
        rw [h0] at hc
        simp [declaredFontNames] at hc
      have hm : manualHeadLinesOf registry els ≠ "" := by
        cases hhe2 : headElsOf els with
        | nil =>
          exfalso
          apply hman
          unfold manualFontElsOf
          rw [hhe2]
          rfl
        | cons e rest =>
          unfold manualHeadLinesOf
          rw [hhe2, List.map_cons]
          exact intercalate_cons_ne_empty _ _ (renderEl_ne_empty _ _ _)
      unfold headContentOf
      rw [List.filter_cons, if_pos (bne_iff_ne.mpr hm)]
      exact intercalate_cons_ne_empty _ _ hm
    · -- the Inter baseline is injected, so the auto-font block is non-empty
      have hfonts : autoFontsOf els =
          ("Inter", interUrl) ::
            injectBodyFonts (alreadyDeclaredOf els ++ [jsToLower "Inter"])
              (collectFontsFromElements (bodyElsOf els)) := by
        unfold autoFontsOf injectBaseline
        simp only [DEFAULT_GOOGLE_FONTS, List.foldl_cons, List.foldl_nil,
          if_neg hc]
        simp [interUrl]
      have ha : autoFontBlockOf els ≠ "" := by
        unfold autoFontBlockOf autoFontLinesOf
        rw [hfonts, List.map_cons]
        exact intercalate_cons_ne_empty _ _ (fontLine_ne_empty _)
      unfold headContentOf
      by_cases hm : (manualHeadLinesOf registry els != "") = true
      · rw [List.filter_cons, if_pos hm]
        exact intercalate_cons_ne_empty _ _ (bne_iff_ne.mp hm)
      · rw [List.filter_cons, if_neg hm, List.filter_cons,
          if_pos (bne_iff_ne.mpr ha), List.filter_nil]
        exact intercalate_cons_ne_empty _ _ ha
  refine ⟨hcontent, ?_⟩
  unfold headBlockOf
  dsimp only
  rw [if_pos (bne_iff_ne.mpr hcontent)]

end MJMLBuilder
